import Mathlib

/-!
Verification of the client-side core of the AI-agent dashboard page
(`frontend/pages/config/ai_agent_v1/app.py`).

The development shallowly embeds the algorithmic parts of the page:

* the Monitor-Runs run ranking (stable ascending sort by
  (status priority, created-at string) followed by a reversal of each
  contiguous group of equal raw status value, lines 314-352 of the source);
* the numeric presentation formatter `safe_float_format` (lines 44-77),
  with Python floats modelled by exact rationals;
* the live-logs filter (lines 760-777), including the display loop that
  skips entries that are not well-formed records;
* the session view-state keys `view_live_logs_run_id` /
  `view_results_run_id` (lines 536-551, 716-719, 819-821);
* the table of HTTP call sites with their timeouts.

Each claim about the specification is settled by a theorem below the
definitions.
-/

/-- Record observed for one backtest run, as consumed by the Monitor Runs
tab.  `status` models `run.get("status", ...)` (`none` = key absent) and
`created_at` models `run.get("created_at", ...)` (`none` = key absent or
null).  `run_id` is the opaque identifier. -/
structure Run where
  run_id : String
  status : Option String
  created_at : Option String
deriving DecidableEq

/-- Status string used by both the sort key and the grouping loop:
`x.get("status", "")`. -/
def statusKey (r : Run) : String := r.status.getD ""

/-- Priority dictionary lookup
`{"RUNNING": 0, "PENDING": 1, "COMPLETED": 2, "FAILED": 3, "CANCELLED": 4}.get(s, 999)`. -/
def status_priority (s : String) : Nat :=
  if s = "RUNNING" then 0
  else if s = "PENDING" then 1
  else if s = "COMPLETED" then 2
  else if s = "FAILED" then 3
  else if s = "CANCELLED" then 4
  else 999

/-- Priority of a run: `status_priority.get(x.get("status", ""), 999)`. -/
def prio (r : Run) : Nat := status_priority (statusKey r)

/-- Timestamp component of the sort key:
`x.get("created_at", "2000-01-01") or "2000-01-01"` — the sentinel is used
when the key is absent, null, or the empty string. -/
def tsKey (r : Run) : String :=
  match r.created_at with
  | Option.none => "2000-01-01"
  | Option.some s => if s = "" then "2000-01-01" else s

/-- Strict lexicographic comparison of code-point sequences: exactly the
order Python uses to compare strings. -/
def charsLt : List Char → List Char → Bool
  | _, [] => false
  | [], _ :: _ => true
  | a :: as, b :: bs =>
    if a.val.toNat < b.val.toNat then true
    else if b.val.toNat < a.val.toNat then false
    else charsLt as bs

/-- Python string comparison `a < b`. -/
def strLt (a b : String) : Bool := charsLt a.data b.data

/-- Python string comparison `a <= b`, written as the negation of the
strict comparison the other way. -/
def strLE (a b : String) : Prop := strLt b a = false

theorem charsLt_irrefl : ∀ l : List Char, charsLt l l = false
  | [] => rfl
  | a :: as => by
    simp only [charsLt, Nat.lt_irrefl, if_false, ite_false]
    exact charsLt_irrefl as

theorem charsLt_trans : ∀ (a b c : List Char),
    charsLt a b = true → charsLt b c = true → charsLt a c = true
  | _, [], _, hab, _ => by simp [charsLt] at hab
  | _, _ :: _, [], _, hbc => by simp [charsLt] at hbc
  | [], _ :: _, _ :: _, _, _ => by simp [charsLt]
  | a :: as, b :: bs, c :: cs, hab, hbc => by
    simp only [charsLt] at hab hbc ⊢
    by_cases h1 : a.val.toNat < b.val.toNat
    · by_cases h3 : b.val.toNat < c.val.toNat
      · rw [if_pos (Nat.lt_trans h1 h3)]
      · by_cases h4 : c.val.toNat < b.val.toNat
        · rw [if_neg h3, if_pos h4] at hbc
          exact Bool.noConfusion hbc
        · rw [if_pos (show a.val.toNat < c.val.toNat by omega)]
    · by_cases h2 : b.val.toNat < a.val.toNat
      · rw [if_neg h1, if_pos h2] at hab
        exact Bool.noConfusion hab
      · rw [if_neg h1, if_neg h2] at hab
        by_cases h3 : b.val.toNat < c.val.toNat
        · rw [if_pos (show a.val.toNat < c.val.toNat by omega)]
        · by_cases h4 : c.val.toNat < b.val.toNat
          · rw [if_neg h3, if_pos h4] at hbc
            exact Bool.noConfusion hbc
          · rw [if_neg h3, if_neg h4] at hbc
            rw [if_neg (show ¬ a.val.toNat < c.val.toNat by omega),
                if_neg (show ¬ c.val.toNat < a.val.toNat by omega)]
            exact charsLt_trans as bs cs hab hbc

theorem charsLt_eq_of_not : ∀ (a b : List Char),
    charsLt a b = false → charsLt b a = false → a = b
  | [], [], _, _ => rfl
  | [], _ :: _, hab, _ => by simp [charsLt] at hab
  | _ :: _, [], _, hba => by simp [charsLt] at hba
  | a :: as, b :: bs, hab, hba => by
    simp only [charsLt] at hab hba
    by_cases h1 : a.val.toNat < b.val.toNat
    · simp [h1] at hab
    · by_cases h2 : b.val.toNat < a.val.toNat
      · simp [h2] at hba
      · simp only [h1, h2, if_false, ite_false] at hab hba
        have hv : a.val = b.val := by
          have : a.val.toNat = b.val.toNat := by omega
          exact UInt32.toNat.inj this
        have hc : a = b := Char.ext hv
        rw [hc, charsLt_eq_of_not as bs hab hba]

theorem charsLt_asymm {a b : List Char} (hab : charsLt a b = true) :
    charsLt b a = false := by
  cases hba : charsLt b a
  · rfl
  · have h := charsLt_trans a b a hab hba
    rw [charsLt_irrefl] at h
    exact h.symm ▸ rfl

theorem strLE_total (a b : String) : strLE a b ∨ strLE b a := by
  unfold strLE strLt
  cases h1 : charsLt b.data a.data
  · exact Or.inl rfl
  · exact Or.inr (charsLt_asymm h1)

theorem strLE_trans {a b c : String} (h1 : strLE a b) (h2 : strLE b c) :
    strLE a c := by
  unfold strLE strLt at h1 h2 ⊢
  cases h3 : charsLt c.data a.data
  · rfl
  · exfalso
    cases h5 : charsLt a.data b.data
    · have hd : a.data = b.data := charsLt_eq_of_not _ _ h5 h1
      rw [hd] at h3
      rw [h3] at h2
      exact Bool.noConfusion h2
    · have h6 := charsLt_trans _ _ _ h3 h5
      rw [h6] at h2
      exact Bool.noConfusion h2

theorem strLE_antisymm {a b : String} (h1 : strLE a b) (h2 : strLE b a) :
    a = b := by
  unfold strLE strLt at h1 h2
  have hd : a.data = b.data := charsLt_eq_of_not _ _ h2 h1
  exact congrArg String.mk hd

/-- Ascending comparison on the Python sort key tuple
`(status_priority, created_at)`: lexicographic on (Nat, String). -/
def runLE (a b : Run) : Prop :=
  prio a < prio b ∨ (prio a = prio b ∧ strLE (tsKey a) (tsKey b))

instance : DecidableRel runLE := fun a b => by
  unfold runLE strLE; infer_instance

instance : IsTotal Run runLE where
  total a b := by
    rcases lt_trichotomy (prio a) (prio b) with h | h | h
    · exact Or.inl (Or.inl h)
    · rcases strLE_total (tsKey a) (tsKey b) with h' | h'
      · exact Or.inl (Or.inr ⟨h, h'⟩)
      · exact Or.inr (Or.inr ⟨h.symm, h'⟩)
    · exact Or.inr (Or.inl h)

instance : IsTrans Run runLE where
  trans a b c hab hbc := by
    rcases hab with h1 | ⟨h1, h1'⟩ <;> rcases hbc with h2 | ⟨h2, h2'⟩
    · exact Or.inl (h1.trans h2)
    · exact Or.inl (h2 ▸ h1)
    · exact Or.inl (h1 ▸ h2)
    · exact Or.inr ⟨h1.trans h2, strLE_trans h1' h2'⟩

/-- The first pass of the ranking:
`sorted(runs, key=lambda x: (priority, created_at), reverse=False)` —
Python's `sorted` is the stable ascending sort, embedded as insertion sort
with the ascending key comparison. -/
def sortRuns (runs : List Run) : List Run := List.insertionSort runLE runs

/-- The grouping loop of the second pass (lines 328-350 of the source):
walks the sorted list keeping the current status, the current group and
the accumulated output; on a status change the current group is reversed
and flushed, and the trailing group is flushed at the end. -/
def groupStep : List Run → Option String → List Run → List Run → List Run
  | [], _, curGroup, acc => acc ++ curGroup.reverse
  | run :: rest, Option.none, curGroup, acc =>
    groupStep rest (Option.some (statusKey run)) (curGroup ++ [run]) acc
  | run :: rest, Option.some s, curGroup, acc =>
    if Option.some s = Option.some (statusKey run) then
      groupStep rest (Option.some s) (curGroup ++ [run]) acc
    else
      groupStep rest (Option.some (statusKey run)) [run] (acc ++ curGroup.reverse)

/-- The complete run ranking computed in the Monitor Runs tab
(the `final_sorted` value of the source): stable ascending sort followed
by the per-group reversal loop. -/
def final_sorted (runs : List Run) : List Run :=
  groupStep (sortRuns runs) Option.none [] []

/-- Maximal contiguous groups of equal `f`-value, leaves first: the
reference chunking used to restate the grouping loop. -/
def chunksBy {α : Type} [DecidableEq α] (f : Run → α) : List Run → List (List Run)
  | [] => []
  | [x] => [[x]]
  | x :: y :: rest =>
    match chunksBy f (y :: rest) with
    | [] => [[x]]
    | g :: gs => if f x = f y then (x :: g) :: gs else [x] :: g :: gs

/-- Reference ranking with grouping by the raw status value: stable
ascending sort, then reversal of each contiguous group of equal status
string. -/
def refRankStatus (runs : List Run) : List Run :=
  ((chunksBy statusKey (sortRuns runs)).map List.reverse).flatten

/-- Modelled from the spec: the reference two-pass procedure of §4.2 as the
claim words it — stable ascending sort by (stage priority, timestamp),
then reversal of each contiguous group of equal stage *priority*. -/
def specRankPriority (runs : List Run) : List Run :=
  ((chunksBy prio (sortRuns runs)).map List.reverse).flatten

/-! Structural lemmas about `chunksBy` and the grouping loop. -/

theorem chunksBy_ne_nil {α : Type} [DecidableEq α] (f : Run → α) (x : Run)
    (l : List Run) : chunksBy f (x :: l) ≠ [] := by
  cases l with
  | nil => simp [chunksBy]
  | cons y rest =>
    rw [chunksBy]
    cases h : chunksBy f (y :: rest) with
    | nil => simp
    | cons g gs =>
      dsimp only
      split <;> simp

theorem chunksBy_cons {α : Type} [DecidableEq α] (f : Run → α) (x : Run)
    (l : List Run) : ∃ t gs, chunksBy f (x :: l) = (x :: t) :: gs := by
  cases l with
  | nil => exact ⟨[], [], rfl⟩
  | cons y rest =>
    rw [chunksBy]
    cases h : chunksBy f (y :: rest) with
    | nil => exact absurd h (chunksBy_ne_nil f y rest)
    | cons g gs =>
      dsimp only
      split
      · exact ⟨g, gs, rfl⟩
      · exact ⟨[], g :: gs, rfl⟩

theorem chunksBy_flatten {α : Type} [DecidableEq α] (f : Run → α) :
    ∀ l : List Run, (chunksBy f l).flatten = l
  | [] => rfl
  | [x] => rfl
  | x :: y :: rest => by
    rw [chunksBy]
    cases h : chunksBy f (y :: rest) with
    | nil => exact absurd h (chunksBy_ne_nil f y rest)
    | cons g gs =>
      have ih := chunksBy_flatten f (y :: rest)
      rw [h] at ih
      dsimp only
      split
      · simpa using ih
      · simpa using ih

theorem chunksBy_mem_ne_nil {α : Type} [DecidableEq α] (f : Run → α) :
    ∀ (l : List Run) (g : List Run), g ∈ chunksBy f l → g ≠ []
  | [], g, hg => by simp [chunksBy] at hg
  | [x], g, hg => by
    simp only [chunksBy, List.mem_singleton] at hg
    simp [hg]
  | x :: y :: rest, g, hg => by
    rw [chunksBy] at hg
    cases h : chunksBy f (y :: rest) with
    | nil => exact absurd h (chunksBy_ne_nil f y rest)
    | cons g0 gs =>
      rw [h] at hg
      dsimp only at hg
      split at hg
      · rcases List.mem_cons.mp hg with h1 | h1
        · subst h1; simp
        · exact chunksBy_mem_ne_nil f (y :: rest) g
            (h.symm ▸ List.mem_cons_of_mem g0 h1)
      · rcases List.mem_cons.mp hg with h1 | h1
        · subst h1; simp
        · exact chunksBy_mem_ne_nil f (y :: rest) g (h.symm ▸ h1)

theorem chunksBy_mem_const {α : Type} [DecidableEq α] (f : Run → α) :
    ∀ (l : List Run) (g : List Run), g ∈ chunksBy f l →
      ∀ a ∈ g, ∀ b ∈ g, f a = f b
  | [], g, hg => by simp [chunksBy] at hg
  | [x], g, hg => by
    simp only [chunksBy, List.mem_singleton] at hg
    subst hg
    intro a ha b hb
    rw [List.mem_singleton] at ha hb
    rw [ha, hb]
  | x :: y :: rest, g, hg => by
    rw [chunksBy] at hg
    cases h : chunksBy f (y :: rest) with
    | nil => exact absurd h (chunksBy_ne_nil f y rest)
    | cons g0 gs =>
      rw [h] at hg
      dsimp only at hg
      have hg0 : g0 ∈ chunksBy f (y :: rest) := h.symm ▸ List.mem_cons_self g0 gs
      obtain ⟨t, gs', hs⟩ := chunksBy_cons f y rest
      have hg0y : g0 = y :: t := by
        rw [hs] at h
        exact (List.cons.injEq _ _ _ _ ▸ h).1.symm
      split at hg
      · rename_i hf
        rcases List.mem_cons.mp hg with h1 | h1
        · subst h1
          intro a ha b hb
          rcases List.mem_cons.mp ha with ha' | ha' <;>
            rcases List.mem_cons.mp hb with hb' | hb'
          · rw [ha', hb']
          · rw [ha', hf]
            have hy : y ∈ g0 := hg0y ▸ List.mem_cons_self y t
            exact chunksBy_mem_const f (y :: rest) g0 hg0 y hy b hb'
          · rw [hb', hf]
            have hy : y ∈ g0 := hg0y ▸ List.mem_cons_self y t
            exact (chunksBy_mem_const f (y :: rest) g0 hg0 y hy a ha').symm
          · exact chunksBy_mem_const f (y :: rest) g0 hg0 a ha' b hb'
        · exact chunksBy_mem_const f (y :: rest) g
            (h.symm ▸ List.mem_cons_of_mem g0 h1)
      · rcases List.mem_cons.mp hg with h1 | h1
        · subst h1
          intro a ha b hb
          rw [List.mem_singleton] at ha hb
          rw [ha, hb]
        · exact chunksBy_mem_const f (y :: rest) g (h.symm ▸ h1)

theorem chunksBy_sublist {α : Type} [DecidableEq α] (f : Run → α) :
    ∀ (l : List Run) (g : List Run), g ∈ chunksBy f l → g.Sublist l
  | [], g, hg => by simp [chunksBy] at hg
  | [x], g, hg => by
    simp only [chunksBy, List.mem_singleton] at hg
    subst hg
    exact List.Sublist.refl _
  | x :: y :: rest, g, hg => by
    rw [chunksBy] at hg
    cases h : chunksBy f (y :: rest) with
    | nil => exact absurd h (chunksBy_ne_nil f y rest)
    | cons g0 gs =>
      rw [h] at hg
      dsimp only at hg
      have hg0 : g0 ∈ chunksBy f (y :: rest) := h.symm ▸ List.mem_cons_self g0 gs
      split at hg
      · rcases List.mem_cons.mp hg with h1 | h1
        · subst h1
          exact (chunksBy_sublist f (y :: rest) g0 hg0).cons₂ x
        · exact ((chunksBy_sublist f (y :: rest) g
            (h.symm ▸ List.mem_cons_of_mem g0 h1))).cons x
      · rcases List.mem_cons.mp hg with h1 | h1
        · subst h1
          exact (List.nil_sublist (y :: rest)).cons₂ x
        · exact (chunksBy_sublist f (y :: rest) g (h.symm ▸ h1)).cons x

theorem chunksBy_chain' {α : Type} [DecidableEq α] (f : Run → α) :
    ∀ l : List Run,
      List.Chain' (fun g h => ∀ a ∈ g, ∀ b ∈ h, f a ≠ f b) (chunksBy f l)
  | [] => by simp [chunksBy]
  | [x] => by simp [chunksBy]
  | x :: y :: rest => by
    rw [chunksBy]
    cases h : chunksBy f (y :: rest) with
    | nil => exact absurd h (chunksBy_ne_nil f y rest)
    | cons g0 gs =>
      have ih := chunksBy_chain' f (y :: rest)
      rw [h] at ih
      have hg0 : g0 ∈ chunksBy f (y :: rest) := h.symm ▸ List.mem_cons_self g0 gs
      obtain ⟨t, gs', hs⟩ := chunksBy_cons f y rest
      have hg0y : g0 = y :: t := by
        rw [hs] at h
        exact (List.cons.injEq _ _ _ _ ▸ h).1.symm
      have hy : y ∈ g0 := hg0y ▸ List.mem_cons_self y t
      dsimp only
      split
      · rename_i hf
        rw [List.chain'_cons'] at ih ⊢
        refine ⟨?_, ih.2⟩
        intro b hb a ha c hc
        rcases List.mem_cons.mp ha with ha' | ha'
        · rw [ha', hf]
          exact ih.1 b hb y hy c hc
        · exact ih.1 b hb a ha' c hc
      · rename_i hf
        rw [List.chain'_cons']
        refine ⟨?_, ih⟩
        intro b hb a ha c hc
        rw [List.head?_cons, Option.mem_some_iff] at hb
        rw [List.mem_singleton] at ha
        subst hb
        rw [ha]
        intro he
        exact hf (he.trans (chunksBy_mem_const f (y :: rest) g0 hg0 c hc y hy))

theorem chunksBy_all_eq {α : Type} [DecidableEq α] (f : Run → α) :
    ∀ (l : List Run), l ≠ [] → ∀ c : α, (∀ x ∈ l, f x = c) →
      chunksBy f l = [l]
  | [], h, _, _ => absurd rfl h
  | [x], _, _, _ => rfl
  | x :: y :: rest, _, c, hall => by
    rw [chunksBy]
    have ih := chunksBy_all_eq f (y :: rest) (by simp) c
      (fun z hz => hall z (List.mem_cons_of_mem x hz))
    rw [ih]
    dsimp only
    rw [if_pos]
    · rw [hall x (List.mem_cons_self x _), hall y
        (List.mem_cons_of_mem x (List.mem_cons_self y rest))]

theorem chunksBy_append_switch {α : Type} [DecidableEq α] (f : Run → α) :
    ∀ (cg : List Run) (c : α) (r : Run) (rest : List Run),
      cg ≠ [] → (∀ x ∈ cg, f x = c) → f r ≠ c →
      chunksBy f (cg ++ r :: rest) = cg :: chunksBy f (r :: rest)
  | [], _, _, _, h, _, _ => absurd rfl h
  | [x], c, r, rest, _, hall, hr => by
    have hx : f x = c := hall x (List.mem_singleton.mpr rfl)
    rw [List.singleton_append, chunksBy]
    cases h : chunksBy f (r :: rest) with
    | nil => exact absurd h (chunksBy_ne_nil f r rest)
    | cons g gs =>
      dsimp only
      rw [if_neg (fun he => hr (he.symm.trans hx))]
  | x :: x' :: cg', c, r, rest, _, hall, hr => by
    have ih := chunksBy_append_switch f (x' :: cg') c r rest (by simp)
      (fun z hz => hall z (List.mem_cons_of_mem x hz)) hr
    have hx : f x = c := hall x (List.mem_cons_self x _)
    have hx' : f x' = c := hall x'
      (List.mem_cons_of_mem x (List.mem_cons_self x' cg'))
    rw [List.cons_append, List.cons_append, chunksBy]
    rw [List.cons_append] at ih
    rw [ih]
    dsimp only
    rw [if_pos (hx.trans hx'.symm)]

theorem groupStep_eq :
    ∀ (rest : List Run) (cg : List Run) (s : String) (acc : List Run),
      cg ≠ [] → (∀ x ∈ cg, statusKey x = s) →
      groupStep rest (Option.some s) cg acc =
        acc ++ ((chunksBy statusKey (cg ++ rest)).map List.reverse).flatten
  | [], cg, s, acc, hne, hall => by
    rw [groupStep, List.append_nil, chunksBy_all_eq statusKey cg hne s hall]
    simp
  | r :: rest, cg, s, acc, hne, hall => by
    rw [groupStep]
    by_cases hr : statusKey r = s
    · rw [if_pos (congrArg Option.some hr.symm)]
      have ih := groupStep_eq rest (cg ++ [r]) s acc (by simp)
        (by
          intro x hx
          rcases List.mem_append.mp hx with h | h
          · exact hall x h
          · rw [List.mem_singleton] at h
            rw [h, hr])
      rw [ih, List.append_assoc, List.singleton_append]
    · rw [if_neg (fun he => hr (Option.some.inj he).symm)]
      have ih := groupStep_eq rest [r] (statusKey r) (acc ++ cg.reverse)
        (by simp)
        (by
          intro x hx
          rw [List.mem_singleton] at hx
          rw [hx])
      rw [ih, List.singleton_append,
        chunksBy_append_switch statusKey cg s r rest hne hall hr,
        List.map_cons, List.flatten_cons, List.append_assoc]

/-- The grouping loop is the chunk-and-reverse transformation: the Monitor
Runs ranking equals a stable ascending sort followed by the reversal of
each contiguous group of equal raw status value. -/
theorem final_sorted_eq_refRankStatus (runs : List Run) :
    final_sorted runs = refRankStatus runs := by
  unfold final_sorted refRankStatus
  cases h : sortRuns runs with
  | nil => rfl
  | cons r rest =>
    rw [groupStep, List.nil_append]
    rw [groupStep_eq rest [r] (statusKey r) [] (by simp)
      (by intro x hx; rw [List.mem_singleton] at hx; rw [hx]),
      List.nil_append, List.singleton_append]

/-! Order properties of the ranking output. -/

/-- Adjacent-pair form of "timestamps descend inside a contiguous stage
group": when two neighbouring output entries carry the same raw status
value, the later one has a timestamp no greater than the earlier one. -/
def adjOk (a b : Run) : Prop :=
  statusKey a = statusKey b → strLE (tsKey b) (tsKey a)

theorem chain_adjOk_of_chunks :
    ∀ G : List (List Run),
      (∀ g ∈ G, g ≠ []) →
      (∀ g ∈ G, List.Sorted runLE g) →
      List.Chain' (fun g h => ∀ a ∈ g, ∀ b ∈ h, statusKey a ≠ statusKey b) G →
      List.Chain' adjOk ((G.map List.reverse).flatten)
  | [], _, _, _ => by simp
  | g :: G', hne, hsort, hchain => by
    rw [List.map_cons, List.flatten_cons, List.chain'_append]
    refine ⟨?_, ?_, ?_⟩
    · rw [List.chain'_reverse]
      apply List.Pairwise.chain'
      refine List.Pairwise.imp ?_ (hsort g (List.mem_cons_self g G'))
      intro a b hab hst
      rcases hab with h | ⟨h, h'⟩
      · exfalso
        have hpp : prio b = prio a := congrArg status_priority hst
        omega
      · exact h'
    · exact chain_adjOk_of_chunks G'
        (fun g' hg' => hne g' (List.mem_cons_of_mem g hg'))
        (fun g' hg' => hsort g' (List.mem_cons_of_mem g hg'))
        hchain.tail
    · intro x hx y hy
      have hxg : x ∈ g := List.mem_reverse.mp (List.mem_of_mem_getLast? hx)
      cases G' with
      | nil => simp at hy
      | cons g' G'' =>
        have hg'ne : g' ≠ [] :=
          hne g' (List.mem_cons_of_mem g (List.mem_cons_self g' G''))
        have hyg : y ∈ g' := by
          rw [List.map_cons, List.flatten_cons] at hy
          cases hrev : g'.reverse with
          | nil =>
            exact absurd (by simpa using congrArg List.reverse hrev) hg'ne
          | cons c cs =>
            rw [hrev, List.cons_append, List.head?_cons,
              Option.mem_some_iff] at hy
            have hc : c ∈ g'.reverse := hrev ▸ List.mem_cons_self c cs
            exact List.mem_reverse.mp (hy ▸ hc)
        have hrel := (List.chain'_cons.mp hchain).1
        intro hst
        exact absurd hst (hrel x hxg y hyg)

/-- In the ranking output, whenever two neighbouring entries share the same
raw status value the timestamps descend (most recent first). -/
theorem chain_adjOk_final_sorted (runs : List Run) :
    List.Chain' adjOk (final_sorted runs) := by
  rw [final_sorted_eq_refRankStatus]
  unfold refRankStatus
  apply chain_adjOk_of_chunks
  · exact fun g hg => chunksBy_mem_ne_nil statusKey (sortRuns runs) g hg
  · intro g hg
    exact (List.sorted_insertionSort runLE runs).sublist
      (chunksBy_sublist statusKey (sortRuns runs) g hg)
  · exact chunksBy_chain' statusKey (sortRuns runs)

theorem map_const_eq_replicate {β : Type} (F : Run → β) :
    ∀ (g : List Run) (c : β), (∀ x ∈ g, F x = c) →
      g.map F = List.replicate g.length c
  | [], _, _ => rfl
  | x :: xs, c, h => by
    rw [List.map_cons, List.length_cons, List.replicate_succ,
      h x (List.mem_cons_self x xs),
      map_const_eq_replicate F xs c
        (fun z hz => h z (List.mem_cons_of_mem x hz))]

theorem map_prio_reverse_of_const (g : List Run) (c : Nat)
    (h : ∀ x ∈ g, prio x = c) : g.reverse.map prio = g.map prio := by
  rw [map_const_eq_replicate prio g c h,
    map_const_eq_replicate prio g.reverse c
      (fun z hz => h z (List.mem_reverse.mp hz)),
    List.length_reverse]

theorem map_prio_flatten_chunks (l : List Run) :
    (((chunksBy statusKey l).map List.reverse).flatten).map prio =
      l.map prio := by
  rw [List.map_flatten, List.map_map]
  have hcg : (chunksBy statusKey l).map (List.map prio ∘ List.reverse) =
      (chunksBy statusKey l).map (List.map prio) := by
    apply List.map_congr_left
    intro g hg
    have hconst := chunksBy_mem_const statusKey l g hg
    cases g with
    | nil => rfl
    | cons a g' =>
      exact map_prio_reverse_of_const (a :: g') (prio a)
        (fun x hx =>
          congrArg status_priority (hconst x hx a (List.mem_cons_self a g')))
  rw [hcg, ← List.map_flatten, chunksBy_flatten]

/-- The priorities along the sorted first pass are ascending. -/
theorem sorted_map_prio (runs : List Run) :
    List.Sorted (· ≤ ·) ((sortRuns runs).map prio) := by
  rw [List.Sorted, List.pairwise_map]
  refine List.Pairwise.imp ?_ (List.sorted_insertionSort runLE runs)
  intro a b hab
  rcases hab with h | ⟨h, _⟩
  · exact Nat.le_of_lt h
  · exact Nat.le_of_eq h

/-- The priorities along the final ranking output are ascending. -/
theorem sorted_map_prio_final (runs : List Run) :
    List.Sorted (· ≤ ·) ((final_sorted runs).map prio) := by
  rw [final_sorted_eq_refRankStatus]
  unfold refRankStatus
  rw [map_prio_flatten_chunks]
  exact sorted_map_prio runs

/-! Idempotence machinery. -/

/-- The Python sort key of one run: `(priority, created_at)` with the
sentinel defaults applied. -/
def runKey (r : Run) : Nat × String := (prio r, tsKey r)

theorem runLE_antisymm_key {a b : Run} (h1 : runLE a b) (h2 : runLE b a) :
    runKey a = runKey b := by
  rcases h1 with h1 | ⟨h1, h1'⟩ <;> rcases h2 with h2 | ⟨h2, h2'⟩
  · exact absurd (h1.trans h2) (lt_irrefl _)
  · exact absurd h1 (by omega)
  · exact absurd h2 (by omega)
  · unfold runKey
    rw [h1, strLE_antisymm h1' h2']

theorem eq_of_perm_of_sorted_runs :
    ∀ {l₁ l₂ : List Run}, l₁.Perm l₂ → List.Sorted runLE l₁ →
      List.Sorted runLE l₂ →
      (∀ a ∈ l₁, ∀ b ∈ l₁, runKey a = runKey b → a = b) → l₁ = l₂
  | [], l₂, p, _, _, _ => (p.symm.eq_nil).symm
  | a :: t₁, l₂, p, s₁, s₂, hinj => by
    have ha2 : a ∈ l₂ := p.mem_iff.mp (List.mem_cons_self a t₁)
    cases l₂ with
    | nil => exact absurd ha2 (List.not_mem_nil a)
    | cons b t₂ =>
      have hb1 : b ∈ a :: t₁ := p.mem_iff.mpr (List.mem_cons_self b t₂)
      have hab : a = b := by
        rcases List.mem_cons.mp hb1 with h | h
        · exact h.symm
        · rcases List.mem_cons.mp ha2 with h' | h'
          · exact h'
          · have r1 : runLE a b := (List.pairwise_cons.mp s₁).1 b h
            have r2 : runLE b a := (List.pairwise_cons.mp s₂).1 a h'
            exact hinj a (List.mem_cons_self a t₁) b hb1
              (runLE_antisymm_key r1 r2)
      subst hab
      have pt : t₁.Perm t₂ := (List.perm_cons a).mp p
      have ht : t₁ = t₂ :=
        eq_of_perm_of_sorted_runs pt s₁.of_cons s₂.of_cons
          (fun x hx y hy hk =>
            hinj x (List.mem_cons_of_mem a hx) y (List.mem_cons_of_mem a hy) hk)
      rw [ht]

theorem flatten_map_reverse_perm :
    ∀ G : List (List Run), ((G.map List.reverse).flatten).Perm G.flatten
  | [] => List.Perm.refl _
  | g :: G' => by
    rw [List.map_cons, List.flatten_cons, List.flatten_cons]
    exact (List.reverse_perm g).append (flatten_map_reverse_perm G')

/-- The ranking output is a permutation of the input collection (no drops,
no duplication). -/
theorem final_sorted_perm (runs : List Run) : (final_sorted runs).Perm runs := by
  rw [final_sorted_eq_refRankStatus]
  unfold refRankStatus
  exact ((flatten_map_reverse_perm (chunksBy statusKey (sortRuns runs))).trans
    ((chunksBy_flatten statusKey (sortRuns runs)).symm ▸
      List.Perm.refl (chunksBy statusKey (sortRuns runs)).flatten)).trans
    (List.perm_insertionSort runLE runs)

/-! Concrete run collections used by counterexamples and witnesses. -/

def runListC1 : List Run :=
  [⟨"r1", Option.some "ZZZ", Option.some "2024-01-01"⟩,
   ⟨"r2", Option.some "AAA", Option.some "2024-01-02"⟩,
   ⟨"r3", Option.some "ZZZ", Option.some "2024-01-03"⟩]

def runListC2 : List Run :=
  [⟨"s1", Option.some "XX", Option.some "2024-01-01"⟩,
   ⟨"s2", Option.some "YY", Option.some "2024-01-02"⟩,
   ⟨"s3", Option.some "XX", Option.some "2024-01-03"⟩]

def runA : Run := ⟨"A", Option.some "RUNNING", Option.some "2024-01-01"⟩

def runB : Run := ⟨"B", Option.some "RUNNING", Option.some "2024-01-03"⟩

def runC : Run := ⟨"C", Option.some "RUNNING", Option.some "2024-01-02"⟩

def runListABC : List Run := [runA, runB, runC]

def runListC4 : List Run :=
  [⟨"a", Option.some "RUNNING", Option.some "2024-01-01"⟩,
   ⟨"b", Option.some "RUNNING", Option.some "2024-01-01"⟩]

/-- The claim's "timestamps descend within a stage group" property, read
with a stage group as the set of output entries sharing a raw status
value. -/
def sameStageTsDesc (l : List Run) : Prop :=
  ∀ i j : Fin l.length, (i : Nat) < (j : Nat) →
    statusKey (l.get i) = statusKey (l.get j) →
    strLE (tsKey (l.get j)) (tsKey (l.get i))

instance (l : List Run) : Decidable (sameStageTsDesc l) := by
  unfold sameStageTsDesc strLE
  infer_instance

/-- C1, counterexample: the loop groups by raw status value, not by stage
priority.  Three runs carrying two distinct unrecognized statuses (both of
priority 999) interleave by timestamp in the ascending sort; the code
reverses each maximal run of equal status string (here three singleton
groups, leaving the order unchanged), while the spec's procedure reverses
the whole priority-999 group. -/
theorem C1_counterexample :
    final_sorted runListC1 ≠ specRankPriority runListC1 := by decide

/-- C1 (amended): the run ordering of the Monitor Runs tab equals the
two-pass reference procedure with grouping by raw status value — a stable
ascending sort by (stage priority, creation timestamp), followed by
reversing the members of each maximal contiguous group of equal raw
status string.  For collections whose stages are pairwise distinct in
priority (in particular all-recognized stages) this coincides with
grouping by stage priority. -/
theorem C1_ranking_two_pass (runs : List Run) :
    final_sorted runs = refRankStatus runs :=
  final_sorted_eq_refRankStatus runs

theorem C1_witness : final_sorted runListC1 = refRankStatus runListC1 :=
  C1_ranking_two_pass runListC1

/-- C2, counterexample: with two distinct unrecognized statuses (equal
priority 999) the entries of one stage group need not descend by
timestamp: the ranking of `runListC2` keeps the two "XX" runs in
timestamp-ascending positions because the "YY" run splits the contiguous
group between them. -/
theorem C2_counterexample : ¬ sameStageTsDesc (final_sorted runListC2) := by
  decide

/-- C2 (amended): within each maximal contiguous group of equal raw status
value in the ranking output, creation timestamps descend (most recent
first, missing timestamps reading as the "2000-01-01" sentinel): any two
neighbouring output entries with the same status satisfy the descending
comparison.  In particular runs A(2024-01-01), B(2024-01-03),
C(2024-01-02), all RUNNING, come out in the order B, C, A. -/
theorem C2_group_ts_descending :
    (∀ runs : List Run, List.Chain' adjOk (final_sorted runs)) ∧
      final_sorted runListABC = [runB, runC, runA] :=
  ⟨chain_adjOk_final_sorted, by decide⟩

theorem C2_witness : List.Chain' adjOk (final_sorted runListABC) :=
  C2_group_ts_descending.1 runListABC

/-- C3: the priority mapping is RUNNING=0, PENDING=1, COMPLETED=2,
FAILED=3, CANCELLED=4, every other status string gets 999, and in every
ranking output the stage priorities are ascending — every RUNNING entry
precedes every PENDING entry, which precedes every COMPLETED entry, then
FAILED, then CANCELLED, with unknown stages after all recognized ones. -/
theorem C3_stage_priority_order :
    status_priority "RUNNING" = 0 ∧ status_priority "PENDING" = 1 ∧
    status_priority "COMPLETED" = 2 ∧ status_priority "FAILED" = 3 ∧
    status_priority "CANCELLED" = 4 ∧
    (∀ s : String,
      s ∉ ["RUNNING", "PENDING", "COMPLETED", "FAILED", "CANCELLED"] →
      status_priority s = 999) ∧
    (∀ runs : List Run,
      List.Sorted (· ≤ ·) ((final_sorted runs).map prio)) ∧
    (∀ runs : List Run, ∀ i j : Fin (final_sorted runs).length, i < j →
      prio ((final_sorted runs).get i) ≤ prio ((final_sorted runs).get j)) := by
  refine ⟨rfl, rfl, rfl, rfl, rfl, ?_, sorted_map_prio_final, ?_⟩
  · intro s hs
    simp only [List.mem_cons, List.mem_singleton, not_or] at hs
    obtain ⟨h1, h2, h3, h4, h5⟩ := hs
    simp [status_priority, h1, h2, h3, h4, h5]
  · intro runs i j hij
    have hp : List.Pairwise (fun a b => prio a ≤ prio b) (final_sorted runs) :=
      (List.pairwise_map).mp (sorted_map_prio_final runs)
    exact List.pairwise_iff_get.mp hp i j hij

theorem C3_witness :
    status_priority "WEIRD" = 999 ∧
    List.Sorted (· ≤ ·) ((final_sorted runListC1).map prio) :=
  ⟨C3_stage_priority_order.2.2.2.2.2.1 "WEIRD" (by decide),
   C3_stage_priority_order.2.2.2.2.2.2.1 runListC1⟩

/-- C4, counterexample: the ranking is not idempotent.  Two RUNNING runs
with the same creation timestamp but different run ids swap on every
application: the stable sort keeps their relative order and the group
reversal flips it, so applying the ranking to its own output flips them
back. -/
theorem C4_counterexample :
    final_sorted (final_sorted runListC4) ≠ final_sorted runListC4 := by
  decide

/-- C4 (amended): the ranking is idempotent on every collection in which
the sort key (stage priority, sentinel-adjusted creation timestamp)
determines the record — no two distinct records share a key.  Tied
distinct records are swapped by each application, so the general claim
fails. -/
theorem C4_idempotent_of_key_injective (runs : List Run)
    (hinj : ∀ a ∈ runs, ∀ b ∈ runs, runKey a = runKey b → a = b) :
    final_sorted (final_sorted runs) = final_sorted runs := by
  have hperm : (sortRuns (final_sorted runs)).Perm (sortRuns runs) :=
    ((List.perm_insertionSort runLE (final_sorted runs)).trans
      (final_sorted_perm runs)).trans
      (List.perm_insertionSort runLE runs).symm
  have hmem : ∀ x ∈ sortRuns (final_sorted runs), x ∈ runs := fun x hx =>
    ((List.perm_insertionSort runLE (final_sorted runs)).trans
      (final_sorted_perm runs)).mem_iff.mp hx
  have heq : sortRuns (final_sorted runs) = sortRuns runs :=
    eq_of_perm_of_sorted_runs hperm
      (List.sorted_insertionSort runLE (final_sorted runs))
      (List.sorted_insertionSort runLE runs)
      (fun a ha b hb hk => hinj a (hmem a ha) b (hmem b hb) hk)
  show groupStep (sortRuns (final_sorted runs)) Option.none [] [] =
    final_sorted runs
  rw [heq]
  rfl

theorem C4_witness :
    final_sorted (final_sorted runListC1) = final_sorted runListC1 :=
  C4_idempotent_of_key_injective runListC1 (by decide)

/-! Numeric presentation formatter (`safe_float_format`, lines 44-77 of the
source).  Python binary floats are modelled by exact fractions with a
positive denominator; the only arithmetic the formatter performs is one
multiplication followed by fixed-precision decimal rounding, and on every
value exercised here the exact result agrees with the binary-float
computation of the source. -/

/-- Exact fraction `num / den` (with `den` positive by construction at
every use site). -/
structure Frac where
  num : Int
  den : Nat
deriving DecidableEq

def Frac.mul (a b : Frac) : Frac := ⟨a.num * b.num, a.den * b.den⟩

/-- Rounding of `n / d` to the nearest integer, ties to even: the rounding
Python's fixed-point float formatting applies to the scaled value. -/
def roundHalfEven (n : Int) (d : Nat) : Int :=
  let fl := Int.fdiv n d
  let r := n - fl * d
  if 2 * r < d then fl
  else if (d : Int) < 2 * r then fl + 1
  else if fl % 2 = 0 then fl else fl + 1

def padZeros (s : String) (p : Nat) : String :=
  String.mk (List.replicate (p - s.length) '0') ++ s

/-- Fixed-precision rendering of a non-negative fraction. -/
def formatFixedNN (f : Frac) (p : Nat) : String :=
  let n := (roundHalfEven (f.num * (10 : Int) ^ p) f.den).toNat
  if p = 0 then Nat.repr n
  else Nat.repr (n / 10 ^ p) ++ "." ++ padZeros (Nat.repr (n % 10 ^ p)) p

/-- The Python format specifier `f"{value:.{precision}f}"`. -/
def formatFixed (f : Frac) (p : Nat) : String :=
  if f.num < 0 then "-" ++ formatFixedNN ⟨-f.num, f.den⟩ p
  else formatFixedNN f p

/-- A Python value as passed to the formatter: absent (`None`), a string,
an `int`, a `float`, or any other object. -/
inductive PyVal where
  | vNone
  | vStr (s : String)
  | vInt (n : Int)
  | vFloat (f : Frac)
  | vOther
deriving DecidableEq

def digitsToNat (l : List Char) : Nat :=
  l.foldl (fun acc c => acc * 10 + (c.toNat - 48)) 0

/-- Model of the conversion `float(value)` on a string argument: parses an
optional sign, integer digits and an optional fractional part, and fails
(the `ValueError` branch of the source) on anything else. -/
def parseFloat (s : String) : Option Frac :=
  let sr : Int × List Char :=
    match s.data with
    | '-' :: r => (-1, r)
    | '+' :: r => (1, r)
    | r => (1, r)
  let ip := sr.2.takeWhile Char.isDigit
  let rest2 := sr.2.dropWhile Char.isDigit
  match rest2 with
  | [] =>
    if ip.isEmpty then Option.none
    else Option.some ⟨sr.1 * digitsToNat ip, 1⟩
  | '.' :: fr =>
    if fr.all Char.isDigit && !(ip.isEmpty && fr.isEmpty) then
      Option.some
        ⟨sr.1 * ((digitsToNat ip) * (10 : Int) ^ fr.length + digitsToNat fr),
         10 ^ fr.length⟩
    else Option.none
  | _ => Option.none

/-- The formatter of the source: `None` and non-numeric objects yield the
default, a string is converted by `float(...)` with the failure caught,
then the value is multiplied before being formatted with the requested
precision and wrapped in the prefix/suffix (`pre`/`suf` here). -/
def safe_float_format (value : PyVal) (precision : Nat := 2)
    (pre : String := "") (suf : String := "")
    (multiplier : Frac := ⟨1, 1⟩) (default : String := "N/A") : String :=
  match value with
  | PyVal.vNone => default
  | PyVal.vStr s =>
    match parseFloat s with
    | Option.none => default
    | Option.some f => pre ++ formatFixed (f.mul multiplier) precision ++ suf
  | PyVal.vInt n => pre ++ formatFixed (Frac.mul ⟨n, 1⟩ multiplier) precision ++ suf
  | PyVal.vFloat f => pre ++ formatFixed (f.mul multiplier) precision ++ suf
  | PyVal.vOther => default

/-- C5: the formatter's reference values: `None` gives "N/A"; 0.1234 with
precision 2, multiplier 100 and suffix "%" gives "12.34%" (the multiplier
is applied before rounding); the non-numeric string "abc" gives "N/A";
and 5 with precision 2 and prefix "$" gives "$5.00". -/
theorem C5_formatter_examples :
    safe_float_format PyVal.vNone 2 "" "" ⟨1, 1⟩ "N/A" = "N/A" ∧
    safe_float_format (PyVal.vFloat ⟨1234, 10000⟩) 2 "" "%" ⟨100, 1⟩ "N/A" =
      "12.34%" ∧
    safe_float_format (PyVal.vStr "abc") 2 "" "" ⟨1, 1⟩ "N/A" = "N/A" ∧
    safe_float_format (PyVal.vInt 5) 2 "$" "" ⟨1, 1⟩ "N/A" = "$5.00" := by
  refine ⟨rfl, by decide, by decide, by decide⟩

/-- C6: the formatter never raises and every failure path returns the
sentinel: an absent value, a non-numeric object, and a string whose
conversion fails all yield the default "N/A", for every precision,
prefix, suffix and multiplier. -/
theorem C6_formatter_total_default (precision : Nat) (pre suf : String)
    (multiplier : Frac) (s : String) :
    safe_float_format PyVal.vNone precision pre suf multiplier "N/A" =
      "N/A" ∧
    safe_float_format PyVal.vOther precision pre suf multiplier "N/A" =
      "N/A" ∧
    (parseFloat s = Option.none →
      safe_float_format (PyVal.vStr s) precision pre suf multiplier "N/A" =
        "N/A") := by
  refine ⟨rfl, rfl, ?_⟩
  intro h
  show (match parseFloat s with
    | Option.none => "N/A"
    | Option.some f =>
      pre ++ formatFixed (f.mul multiplier) precision ++ suf) = "N/A"
  rw [h]

theorem C6_witness :
    parseFloat "abc" = Option.none ∧
    safe_float_format (PyVal.vStr "abc") 3 "$" "%" ⟨100, 1⟩ "N/A" = "N/A" := by
  have h : parseFloat "abc" = Option.none := by decide
  exact ⟨h, (C6_formatter_total_default 3 "$" "%" ⟨100, 1⟩ "abc").2.2 h⟩

/-! Live-logs filter (lines 760-777 of the source). -/

/-- A well-formed log record: the four fields read by the page, each
possibly absent. -/
structure LogEntry where
  timestamp : Option String
  log_level : Option String
  log_category : Option String
  log_message : Option String
deriving DecidableEq

/-- One element of the fetched `logs` array: a well-formed record (a dict
in the source) or a structurally malformed value. -/
inductive LogVal where
  | mal
  | entry (e : LogEntry)
deriving DecidableEq

/-- The `isinstance(log, dict)` test. -/
def isEntry : LogVal → Bool
  | LogVal.mal => false
  | LogVal.entry _ => true

/-- The test `isinstance(log, dict) and log.get("log_category") ==
selected_category`. -/
def catMatches (cat : String) : LogVal → Bool
  | LogVal.mal => false
  | LogVal.entry e => e.log_category == Option.some cat

/-- The test `isinstance(log, dict) and log.get("log_level") ==
selected_level`. -/
def lvlMatches (lvl : String) : LogVal → Bool
  | LogVal.mal => false
  | LogVal.entry e => e.log_level == Option.some lvl

/-- The `filtered_logs` computation of the source: the category filter is
applied when the category selector is not "All", then the level filter
when the level selector is not "All", then the list is reversed when the
"Show newest first" box is ticked. -/
def filtered_logs (logs : List LogVal)
    (selectedCategory selectedLevel : String) (autoScroll : Bool) :
    List LogVal :=
  let l1 := if selectedCategory = "All" then logs
    else logs.filter (catMatches selectedCategory)
  let l2 := if selectedLevel = "All" then l1
    else l1.filter (lvlMatches selectedLevel)
  if autoScroll then l2.reverse else l2

/-- The conjunctive keep-predicate the specification describes: an entry
is kept when its category matches (unless the category filter is "All")
and its level matches (unless the level filter is "All"). -/
def keepLog (cat lvl : String) (log : LogVal) : Bool :=
  (cat == "All" || catMatches cat log) && (lvl == "All" || lvlMatches lvl log)

/-- The display loop of the source skips values that are not well-formed
records (`if not isinstance(log, dict): continue`). -/
def toEntry : LogVal → Option LogEntry
  | LogVal.mal => Option.none
  | LogVal.entry e => Option.some e

/-- The sequence of log records the page actually renders: the filtered
list with malformed values skipped by the display loop. -/
def displayedLogs (logs : List LogVal)
    (selectedCategory selectedLevel : String) (autoScroll : Bool) :
    List LogEntry :=
  (filtered_logs logs selectedCategory selectedLevel autoScroll).filterMap
    toEntry

theorem filtered_logs_false_eq (logs : List LogVal) (cat lvl : String) :
    filtered_logs logs cat lvl false = logs.filter (keepLog cat lvl) := by
  unfold filtered_logs keepLog
  by_cases hc : cat = "All" <;> by_cases hl : lvl = "All"
  · simp [hc, hl]
  · have hl' : (lvl == "All") = false := beq_eq_false_iff_ne.mpr hl
    simp [hc, hl, hl']
  · have hc' : (cat == "All") = false := beq_eq_false_iff_ne.mpr hc
    simp [hc, hl, hc']
  · have hc' : (cat == "All") = false := beq_eq_false_iff_ne.mpr hc
    have hl' : (lvl == "All") = false := beq_eq_false_iff_ne.mpr hl
    simp [hc, hl, hc', hl', List.filter_filter, Bool.and_comm]

theorem filtered_logs_true_eq (logs : List LogVal) (cat lvl : String) :
    filtered_logs logs cat lvl true =
      (logs.filter (keepLog cat lvl)).reverse := by
  have h : filtered_logs logs cat lvl true =
      (filtered_logs logs cat lvl false).reverse := by
    unfold filtered_logs
    simp
  rw [h, filtered_logs_false_eq]

/-- C7: the log filter returns exactly the conjunctive-match subsequence
in original relative order, the "newest first" flag reverses only the
already-filtered sequence, and the displayed count is the filtered
count. -/
theorem C7_filter_conjunctive (logs : List LogVal) (cat lvl : String) :
    filtered_logs logs cat lvl false = logs.filter (keepLog cat lvl) ∧
    filtered_logs logs cat lvl true =
      (logs.filter (keepLog cat lvl)).reverse ∧
    (filtered_logs logs cat lvl true).length =
      (filtered_logs logs cat lvl false).length :=
  ⟨filtered_logs_false_eq logs cat lvl, filtered_logs_true_eq logs cat lvl,
   by rw [filtered_logs_true_eq, filtered_logs_false_eq, List.length_reverse]⟩

def logsC7 : List LogVal :=
  [LogVal.entry ⟨Option.some "t1", Option.some "INFO", Option.some "ERROR",
    Option.some "m1"⟩,
   LogVal.entry ⟨Option.some "t2", Option.some "DEBUG", Option.some "TRADE",
    Option.some "m2"⟩,
   LogVal.entry ⟨Option.some "t3", Option.some "ERROR", Option.some "ERROR",
    Option.some "m3"⟩]

theorem C7_witness :
    filtered_logs logsC7 "ERROR" "All" false =
      logsC7.filter (keepLog "ERROR" "All") :=
  (C7_filter_conjunctive logsC7 "ERROR" "All").1

theorem filterMap_toEntry_filter_and (p : LogVal → Bool) :
    ∀ l : List LogVal,
      (l.filter p).filterMap toEntry =
        (l.filter (fun a => p a && isEntry a)).filterMap toEntry
  | [] => rfl
  | a :: t => by
    cases a with
    | mal =>
      by_cases hp : p LogVal.mal <;>
        simp [List.filter_cons, hp, isEntry, toEntry, List.filterMap_cons,
          filterMap_toEntry_filter_and p t]
    | entry e =>
      by_cases hp : p (LogVal.entry e) <;>
        simp [List.filter_cons, hp, isEntry, toEntry, List.filterMap_cons,
          filterMap_toEntry_filter_and p t]

/-- C8: structurally malformed log values are silently skipped: for every
selection of the category and level filters (the "All" sentinel included)
and either ordering, the rendered log sequence is unchanged when the
malformed values are removed up front, and no failure is possible (the
pipeline is a total function). -/
theorem C8_malformed_skipped (logs : List LogVal) (cat lvl : String)
    (auto : Bool) :
    displayedLogs logs cat lvl auto =
      displayedLogs (logs.filter isEntry) cat lvl auto := by
  unfold displayedLogs
  cases auto with
  | false =>
    rw [filtered_logs_false_eq, filtered_logs_false_eq, List.filter_filter,
      filterMap_toEntry_filter_and]
  | true =>
    rw [filtered_logs_true_eq, filtered_logs_true_eq, List.filter_filter,
      List.filterMap_reverse, List.filterMap_reverse,
      filterMap_toEntry_filter_and]

def logsC8 : List LogVal := [LogVal.mal, LogVal.entry
  ⟨Option.some "t1", Option.some "INFO", Option.some "SYSTEM",
   Option.some "m1"⟩, LogVal.mal]

theorem C8_witness :
    displayedLogs logsC8 "All" "All" true =
      displayedLogs (logsC8.filter isEntry) "All" "All" true :=
  C8_malformed_skipped logsC8 "All" "All" true

/-! View-state controller: the Streamlit session-state keys used by the
page, modelled as a string-keyed map. -/

def SessionState : Type := String → Option String

/-- Dictionary assignment `st.session_state[k] = v`. -/
def setKey (s : SessionState) (k v : String) : SessionState :=
  fun q => if q = k then Option.some v else s q

/-- Dictionary deletion `del st.session_state[k]`. -/
def delKey (s : SessionState) (k : String) : SessionState :=
  fun q => if q = k then Option.none else s q

/-- Clicking "View Live Logs" / "View All Logs":
`st.session_state["view_live_logs_run_id"] = monitor_run_id`. -/
def openLogs (s : SessionState) (rid : String) : SessionState :=
  setKey s "view_live_logs_run_id" rid

/-- Clicking "View Full Results" / "View Selected Run":
`st.session_state["view_results_run_id"] = run_id`. -/
def openResults (s : SessionState) (rid : String) : SessionState :=
  setKey s "view_results_run_id" rid

/-- Clicking "Close" in the logs viewer:
`del st.session_state["view_live_logs_run_id"]`. -/
def closeLogs (s : SessionState) : SessionState :=
  delKey s "view_live_logs_run_id"

/-- Clicking "Close Results":
`del st.session_state["view_results_run_id"]`. -/
def closeResults (s : SessionState) : SessionState :=
  delKey s "view_results_run_id"

/-- C9: the logs-viewer and results-viewer states are independent: after
opening both for the same run both keys are populated; closing the logs
viewer clears only `view_live_logs_run_id` and leaves every other key —
`view_results_run_id` and the Monitoring selection included — unchanged,
and symmetrically for closing the results viewer. -/
theorem C9_view_states_independent (s : SessionState) (rid : String) :
    (openResults (openLogs s rid) rid) "view_live_logs_run_id" =
      Option.some rid ∧
    (openResults (openLogs s rid) rid) "view_results_run_id" =
      Option.some rid ∧
    (closeLogs (openResults (openLogs s rid) rid)) "view_live_logs_run_id" =
      Option.none ∧
    (∀ k : String, k ≠ "view_live_logs_run_id" →
      (closeLogs (openResults (openLogs s rid) rid)) k =
        (openResults (openLogs s rid) rid) k) ∧
    (closeResults (openResults (openLogs s rid) rid)) "view_results_run_id" =
      Option.none ∧
    (∀ k : String, k ≠ "view_results_run_id" →
      (closeResults (openResults (openLogs s rid) rid)) k =
        (openResults (openLogs s rid) rid) k) := by
  unfold openLogs openResults closeLogs closeResults setKey delKey
  refine ⟨by simp, by simp, by simp, ?_, by simp, ?_⟩
  · intro k hk
    simp [hk]
  · intro k hk
    simp [hk]

theorem C9_witness :
    (closeLogs (openResults (openLogs (fun _ => Option.none) "run_X") "run_X"))
        "view_results_run_id" =
      (openResults (openLogs (fun _ => Option.none) "run_X") "run_X")
        "view_results_run_id" ∧
    (closeLogs (openResults (openLogs (fun _ => Option.none) "run_X") "run_X"))
        "monitor_run_selector" =
      (openResults (openLogs (fun _ => Option.none) "run_X") "run_X")
        "monitor_run_selector" :=
  ⟨(C9_view_states_independent (fun _ => Option.none) "run_X").2.2.2.1
      "view_results_run_id" (by decide),
   (C9_view_states_independent (fun _ => Option.none) "run_X").2.2.2.1
      "monitor_run_selector" (by decide)⟩

/-! Timeouts of the HTTP call sites. -/

inductive Endpoint where
  | start
  | list
  | status
  | stop
  | results
deriving DecidableEq

structure ApiCall where
  site : String
  endpoint : Endpoint
  timeout : Nat
deriving DecidableEq

/-- Every HTTP request the page issues, in source order, with the
`timeout=` argument it passes (lines 256-261, 298-303, 436-440, 520-524,
559-564, 621-626, 729-734 and 825-830 of the source). -/
def apiCalls : List ApiCall :=
  [⟨"start_backtest", Endpoint.start, 10⟩,
   ⟨"monitor_list", Endpoint.list, 10⟩,
   ⟨"monitor_status", Endpoint.status, 10⟩,
   ⟨"monitor_stop", Endpoint.stop, 10⟩,
   ⟨"monitor_recent_logs_preview", Endpoint.results, 10⟩,
   ⟨"history_list", Endpoint.list, 10⟩,
   ⟨"live_logs_viewer", Endpoint.results, 30⟩,
   ⟨"results_viewer", Endpoint.results, 30⟩]

/-- C10, counterexample: the recent-logs preview inside the Monitor tab is
a `GET /backtesting/results/{run_id}` call carrying `timeout=10`, so not
every results call carries the 30-second timeout. -/
theorem C10_counterexample :
    apiCalls[4]? =
      Option.some ⟨"monitor_recent_logs_preview", Endpoint.results, 10⟩ ∧
    ¬ (∀ c ∈ apiCalls, c.endpoint = Endpoint.results → c.timeout = 30) := by
  decide

/-- C10 (amended): every control or status call (start, list, status,
stop) carries a 10-second timeout; the bulk results calls of the logs
viewer and the results viewer carry 30 seconds, while the in-monitor
recent-logs preview — also a results call — carries 10 seconds. -/
theorem C10_timeouts :
    ∀ c ∈ apiCalls,
      (c.endpoint ≠ Endpoint.results → c.timeout = 10) ∧
      (c.endpoint = Endpoint.results →
        (c.site = "monitor_recent_logs_preview" → c.timeout = 10) ∧
        (c.site ≠ "monitor_recent_logs_preview" → c.timeout = 30)) := by
  decide

theorem C10_witness :
    (ApiCall.mk "live_logs_viewer" Endpoint.results 30) ∈ apiCalls ∧
    (ApiCall.mk "live_logs_viewer" Endpoint.results 30).timeout = 30 := by
  have hm : (ApiCall.mk "live_logs_viewer" Endpoint.results 30) ∈ apiCalls :=
    by decide
  exact ⟨hm, ((C10_timeouts _ hm).2 rfl).2 (by decide)⟩
